import Mathlib

/-!
Verification development for a tabular self-play value-learning core over
tic-tac-toe (source: Part 4/tic_tac_toe.py and Part 4/tic_tac_toe_SARSA.py).

The environment (EnvTicTacToe) is embedded as a pure state-passing machine:
the board is a list of nine cells (0 = empty, 1 = X, 2 = O), the turn is 1
or 2, and the numpy random generator is modelled as an abstract seeded
stream of uniform draws and choice indices, threaded explicitly.  Python
dicts (the Q table and its per-board inner dicts) are embedded as
insertion-ordered association lists, since dict iteration order is
semantically relevant to action selection (max over dict keys).
-/

namespace TTT

/-- Abstract model of the environment's seeded random generator
(env.np_random): a stream of uniform floats consumed by random() and a
stream of indices consumed by choice(); each call advances its cursor. -/
structure Rng where
  floats : ℕ → ℚ
  ints : ℕ → ℕ
  fpos : ℕ
  ipos : ℕ

/-- env.np_random.random(): pop the next uniform draw. -/
def randomDraw (r : Rng) : ℚ × Rng :=
  (r.floats r.fpos, { r with fpos := r.fpos + 1 })

/-- env.np_random.choice(l): pick an element of l uniformly; the model
takes the next index draw modulo the length (0 on the empty list, where
the source would raise). -/
def choiceDraw (r : Rng) (l : List ℕ) : ℕ × Rng :=
  (l.getD (r.ints r.ipos % l.length) 0, { r with ipos := r.ipos + 1 })

/-- The board: nine cells, 0 = empty, 1 = X, 2 = O (source: self.board). -/
abbrev Board := List ℕ

/-- The environment's mutable state: board, turn, move counter and the
seeded generator (source: EnvTicTacToe instance attributes). -/
structure EnvState where
  board : Board
  turn : ℕ
  countMoves : ℕ
  rng : Rng

/-- EnvTicTacToe.reset: empty board, X (=1) to move, counter 0; the
generator is freshly seeded by the caller-supplied seed (modelled by
passing the seeded stream in). -/
def envReset (rng : Rng) : EnvState :=
  { board := [0,0,0, 0,0,0, 0,0,0], turn := 1, countMoves := 0, rng := rng }

/-- all(board[pos] == mark for pos in ps) from is_winner. -/
def lineFilled (b : Board) (mark : ℕ) (ps : List ℕ) : Bool :=
  ps.all (fun p => b.getD p 0 == mark)

/-- EnvTicTacToe.is_winner: the if/elif chain over the three rows, three
columns and two diagonals; true as soon as one triple is all `mark`. -/
def is_winner (b : Board) (mark : ℕ) : Bool :=
  lineFilled b mark [0, 1, 2] || lineFilled b mark [3, 4, 5] ||
  lineFilled b mark [6, 7, 8] || lineFilled b mark [0, 3, 6] ||
  lineFilled b mark [1, 4, 7] || lineFilled b mark [2, 5, 8] ||
  lineFilled b mark [0, 4, 8] || lineFilled b mark [2, 4, 6]

/-- EnvTicTacToe._get_legal_actions:
[pos for pos, val in enumerate(board) if val == 0]. -/
def legalActionsOf (b : Board) : List ℕ :=
  (List.range b.length).filter (fun p => b.getD p 0 == 0)

/-- Result tuple of EnvTicTacToe.step (observation/info are readable off
the returned environment state). -/
structure StepResult where
  reward : ℚ
  terminated : Bool
  truncated : Bool
  env : EnvState

/-- EnvTicTacToe.step: increment the move counter, write the current
turn's mark at the acted index, reward -0.01, terminal iff the mover now
has a line or no empty cell remains, then flip the turn.  The source
performs no legality check on the action: an occupied cell is silently
overwritten.  (For an index outside the list the Python would raise
IndexError; all claims below use in-range actions.) -/
def stepE (env : EnvState) (action : ℕ) : StepResult :=
  let cm := env.countMoves + 1
  let b2 := env.board.set action env.turn
  let reward : ℚ := -(1/100)
  let terminated := is_winner b2 env.turn || (legalActionsOf b2).isEmpty
  let turn2 : ℕ := if env.turn = 1 then 2 else 1
  { reward := reward, terminated := terminated, truncated := false,
    env := { board := b2, turn := turn2, countMoves := cm, rng := env.rng } }

/-! ## Python dicts as insertion-ordered association lists -/

/-- Dict lookup: first (and, for genuine dicts, only) binding of the key. -/
def dget? {α β : Type} [DecidableEq α] : List (α × β) → α → Option β
  | [], _ => none
  | e :: t, k => if e.1 = k then some e.2 else dget? t k

/-- Dict write d[k] = v: overwrite in place if the key exists (keeping its
position, as Python dicts do), else append the new binding at the end. -/
def dset {α β : Type} [DecidableEq α] : List (α × β) → α → β → List (α × β)
  | [], k, v => [(k, v)]
  | e :: t, k, v => if e.1 = k then (k, v) :: t else e :: dset t k v

/-- Inner dict of PolicySARSA.Q: action (0..8) to value. -/
abbrev Inner := List (ℕ × ℚ)

/-- PolicySARSA.Q: board tuple to inner dict. -/
abbrev QTable := List (Board × Inner)

/-- Two-level lookup Q[b][a], as an Option. -/
def dget2? (Q : QTable) (b : Board) (a : ℕ) : Option ℚ :=
  (dget? Q b).bind (fun inn => dget? inn a)

/-- Two-level write Q[b][a] = v (creating the inner dict when absent). -/
def dset2 (Q : QTable) (b : Board) (a : ℕ) (v : ℚ) : QTable :=
  dset Q b (dset ((dget? Q b).getD []) a v)

/-! ## PolicySARSA._get_action -/

/-- if a not in Q[board]: Q[board][a] = 0 (lazy default insert). -/
def insDefault (inn : Inner) (a : ℕ) : Inner :=
  if (dget? inn a).isNone then dset inn a 0 else inn

/-- Python max(d, key=d.get) over a nonempty iteration prefix: keep the
current best pair, replacing it only on a strictly greater value, so the
first key attaining the maximum (in dict insertion order) wins. -/
def firstMaxP : (ℕ × ℚ) → Inner → (ℕ × ℚ)
  | best, [] => best
  | best, e :: t => if best.2 < e.2 then firstMaxP e t else firstMaxP best t

/-- Python max(d, key=d.get): first key of maximal value in insertion
order; none on the empty dict (where the source would raise ValueError). -/
def firstMaxKey : Inner → Option ℕ
  | [] => none
  | e :: t => some (firstMaxP e t).1

/-- if board not in Q: Q[board] = dict() (the outer lazy insert at the
top of _get_action). -/
def ensureBoard (Q : QTable) (b : Board) : QTable :=
  if (dget? Q b).isNone then dset Q b [] else Q

/-- Exploitation branch of _get_action: lazily initialize every legal
action's entry for this board (in legal order), then take
max(Q[board], key=Q[board].get).  Returns the action and updated table;
the 0 fallback covers only the empty-dict case, where the source raises. -/
def exploitChoice (Q : QTable) (b : Board) : ℕ × QTable :=
  ((firstMaxKey ((legalActionsOf b).foldl insDefault ((dget? Q b).getD []))).getD 0,
   dset Q b ((legalActionsOf b).foldl insDefault ((dget? Q b).getD [])))

/-- Exploration branch's table side effect: lazily initialize the chosen
action's entry only (if action not in Q[board]: Q[board][action] = 0). -/
def exploreUpdate (Q : QTable) (b : Board) (a : ℕ) : QTable :=
  if (dget? ((dget? Q b).getD []) a).isNone
  then dset Q b (dset ((dget? Q b).getD []) a 0) else Q

/-- PolicySARSA._get_action: ensure Q[board] exists; then, when
epsilon > 0 and the next uniform draw is below epsilon, explore (uniform
choice among legal actions, lazily initializing only the chosen entry);
otherwise exploit.  Note the draw is consumed only when epsilon > 0,
matching the short-circuit `epsilon > 0 and random() < epsilon`.
Only the generator cursor, not board or turn, changes in the env. -/
def getAction (Q : QTable) (env : EnvState) (eps : ℚ) : ℕ × QTable × Rng :=
  if 0 < eps then
    if (randomDraw env.rng).1 < eps then
      ((choiceDraw (randomDraw env.rng).2 (legalActionsOf env.board)).1,
       exploreUpdate (ensureBoard Q env.board) env.board
         (choiceDraw (randomDraw env.rng).2 (legalActionsOf env.board)).1,
       (choiceDraw (randomDraw env.rng).2 (legalActionsOf env.board)).2)
    else
      ((exploitChoice (ensureBoard Q env.board) env.board).1,
       (exploitChoice (ensureBoard Q env.board) env.board).2,
       (randomDraw env.rng).2)
  else
    ((exploitChoice (ensureBoard Q env.board) env.board).1,
     (exploitChoice (ensureBoard Q env.board) env.board).2,
     env.rng)

/-! ## PolicySARSA._learn -/

/-- One player's recorded board-action-reward sequence
(sequence[turn] in _learn). -/
structure Traj where
  boards : List Board
  actions : List ℕ
  rewards : List ℚ

/-- Append one (board, action, reward) record to a player's sequence. -/
def appendStep (t : Traj) (b : Board) (a : ℕ) (r : ℚ) : Traj :=
  { boards := t.boards ++ [b], actions := t.actions ++ [a],
    rewards := t.rewards ++ [r] }

/-- State carried through one episode's inner while loop. -/
structure EpState where
  Q : QTable
  env : EnvState
  seq1 : Traj
  seq2 : Traj

/-- One iteration of the inner `while not terminated` loop of _learn:
select an action, step the environment, and append the (pre-step board,
action, step reward) record to the acting player's sequence (the source
keeps the pre-step board and turn in local variables; they equal the
environment's board and turn before the step). -/
def loopBody (eps : ℚ) (st : EpState) : EpState :=
  if st.env.turn = 1 then
    { Q := (getAction st.Q st.env eps).2.1,
      env := (stepE { st.env with rng := (getAction st.Q st.env eps).2.2 }
        (getAction st.Q st.env eps).1).env,
      seq1 := appendStep st.seq1 st.env.board (getAction st.Q st.env eps).1
        (stepE { st.env with rng := (getAction st.Q st.env eps).2.2 }
          (getAction st.Q st.env eps).1).reward,
      seq2 := st.seq2 }
  else
    { Q := (getAction st.Q st.env eps).2.1,
      env := (stepE { st.env with rng := (getAction st.Q st.env eps).2.2 }
        (getAction st.Q st.env eps).1).env,
      seq1 := st.seq1,
      seq2 := appendStep st.seq2 st.env.board (getAction st.Q st.env eps).1
        (stepE { st.env with rng := (getAction st.Q st.env eps).2.2 }
          (getAction st.Q st.env eps).1).reward }

/-- The terminated flag observed by the loop on this iteration's step. -/
def loopStop (eps : ℚ) (st : EpState) : Bool :=
  (stepE { st.env with rng := (getAction st.Q st.env eps).2.2 }
    (getAction st.Q st.env eps).1).terminated

/-- The inner `while not terminated` loop of _learn, fuel-indexed; the
Bool is true iff a terminal step was reached before the fuel ran out
(the source loop is unbounded; nine iterations always suffice, proved
below as the termination claim). -/
def playLoop (eps : ℚ) : ℕ → EpState → EpState × Bool
  | 0, st => (st, false)
  | fuel + 1, st =>
    if loopStop eps st then (loopBody eps st, true)
    else playLoop eps fuel (loopBody eps st)

/-- One backward-pass update
Q[board][action] += learning_rate * (return - Q[board][action]); the
source indexes an entry that always exists (initialized during play);
the getD 0 covers only that impossible KeyError path. -/
def qUpdate (lr : ℚ) (Q : QTable) (b : Board) (a : ℕ) (G : ℚ) : QTable :=
  let old := (dget2? Q b a).getD 0
  dset2 Q b a (old + lr * (G - old))

/-- Backward pass over one player's sequence: for each index, the return
is the undiscounted sum of that player's rewards from the index onward
(sum(rewards[idx:]), the terminal reward having been appended). -/
def backwardPass (lr : ℚ) (t : Traj) (Q : QTable) : QTable :=
  (List.range t.boards.length).foldl
    (fun q idx =>
      qUpdate lr q (t.boards.getD idx []) (t.actions.getD idx 0)
        ((t.rewards.drop idx).sum)) Q

/-- What one episode of _learn exposes: the updated table, whether the
inner loop reached a terminal step, and both players' final sequences
(terminal reward appended). -/
structure EpisodeResult where
  Q : QTable
  done : Bool
  t1 : Traj
  t2 : Traj
  finalBoard : Board

/-- The episode state at the start of the inner loop: fresh environment
(via env.reset with the episode's seed) and empty sequences. -/
def initEp (rng : Rng) (Q : QTable) : EpState :=
  { Q := Q, env := envReset rng, seq1 := ⟨[], [], []⟩, seq2 := ⟨[], [], []⟩ }

/-- Terminal reward appended to a player's reward list:
1 if that player won else 0.5 if draw else -2. -/
def finalReward (won draw : Bool) : ℚ :=
  if won then 1 else if draw then (1/2 : ℚ) else -2

/-- Player 1's sequence with the terminal reward appended
(draw = not x_wins and not o_wins). -/
def episodeTraj1 (st : EpState) : Traj :=
  { st.seq1 with rewards := st.seq1.rewards ++
      [finalReward (is_winner st.env.board 1)
        (!is_winner st.env.board 1 && !is_winner st.env.board 2)] }

/-- Player 2's sequence with the terminal reward appended. -/
def episodeTraj2 (st : EpState) : Traj :=
  { st.seq2 with rewards := st.seq2.rewards ++
      [finalReward (is_winner st.env.board 2)
        (!is_winner st.env.board 1 && !is_winner st.env.board 2)] }

/-- One iteration of _learn's outer loop: reset the environment with the
episode's seeded generator, play to termination, identify the winner,
append the terminal reward (+1 win, +0.5 draw, -2 loss) to each player's
reward list, then run the backward pass for player 1 and then player 2
(the dict iteration order of the sequence). -/
def runEpisode (rng : Rng) (eps lr : ℚ) (Q : QTable) : EpisodeResult :=
  { Q := backwardPass lr (episodeTraj2 (playLoop eps 9 (initEp rng Q)).1)
      (backwardPass lr (episodeTraj1 (playLoop eps 9 (initEp rng Q)).1)
        (playLoop eps 9 (initEp rng Q)).1.Q),
    done := (playLoop eps 9 (initEp rng Q)).2,
    t1 := episodeTraj1 (playLoop eps 9 (initEp rng Q)).1,
    t2 := episodeTraj2 (playLoop eps 9 (initEp rng Q)).1,
    finalBoard := (playLoop eps 9 (initEp rng Q)).1.env.board }

/-- The outer `while i < num_games` loop of _learn, fuel-indexed; each
episode i resets the environment with seed + i (env.reset(seed=seed+i)),
so its generator is src (seed + i). -/
def learnLoop (src : ℤ → Rng) (eps lr : ℚ) (numGames seed : ℤ) :
    ℕ → ℕ → QTable → QTable
  | 0, _, Q => Q
  | fuel + 1, i, Q =>
    if (i : ℤ) < numGames then
      learnLoop src eps lr numGames seed fuel (i + 1)
        (runEpisode (src (seed + i)) eps lr Q).Q
    else Q

/-- PolicySARSA._learn: reset Q to the empty dict, then run the episode
loop from i = 0; the while loop executes exactly numGames.toNat
iterations, which the fuel makes explicit.  The source performs no
validation of epsilon, learning_rate or num_games. -/
def learn (src : ℤ → Rng) (seed : ℤ) (eps lr : ℚ) (numGames : ℤ) : QTable :=
  learnLoop src eps lr numGames seed numGames.toNat 0 []

/-! ## Spec-side predicates and invariants -/

/-- The eight winning triples, as the spec lists them: three rows, three
columns, two diagonals. -/
def winLines : List (List ℕ) :=
  [[0, 1, 2], [3, 4, 5], [6, 7, 8],
   [0, 3, 6], [1, 4, 7], [2, 5, 8],
   [0, 4, 8], [2, 4, 6]]

/-- Spec-level winning predicate: some listed triple has all three cells
equal to the mark (stated from the spec's words, to compare with the
source's is_winner). -/
def winsSpec (b : Board) (mark : ℕ) : Prop :=
  ∃ t ∈ winLines, ∀ p ∈ t, b.getD p 0 = mark

/-- Number of empty cells of a board. -/
def countEmpty (b : Board) : ℕ := b.countP (fun v => v == 0)

/-- Key invariant of the value table: every action recorded under a
board key is an in-range, empty cell of that board (each entry was
created for an action that was legal in that board). -/
def QInv (Q : QTable) : Prop :=
  ∀ p ∈ Q, ∀ e ∈ p.2, e.1 < p.1.length ∧ p.1.getD e.1 0 = 0

/-- Well-formedness of a recorded sequence: actions align with boards
and every recorded action was legal in its recorded board. -/
def TrajOK (t : Traj) : Prop :=
  t.actions.length = t.boards.length ∧
  ∀ p ∈ t.boards.zip t.actions, p.2 < p.1.length ∧ p.1.getD p.2 0 = 0

/-! ## Association-list (dict) lemmas -/

theorem dget?_dset_self {α β : Type} [DecidableEq α] (l : List (α × β))
    (k : α) (v : β) : dget? (dset l k v) k = some v := by
  induction l with
  | nil => simp [dset, dget?]
  | cons e t ih =>
    by_cases h : e.1 = k
    · simp [dset, dget?, h]
    · simp [dset, dget?, h, ih]

theorem dget?_dset_ne {α β : Type} [DecidableEq α] (l : List (α × β))
    (k k' : α) (v : β) (h : k' ≠ k) : dget? (dset l k v) k' = dget? l k' := by
  induction l with
  | nil =>
    simp only [dset, dget?]
    rw [if_neg (fun hh => h hh.symm)]
  | cons e t ih =>
    by_cases he : e.1 = k
    · have hkk : k ≠ k' := fun hh => h hh.symm
      simp [dset, dget?, he, hkk]
    · by_cases he' : e.1 = k'
      · simp [dset, dget?, he, he', h]
      · simp [dset, dget?, he, he', ih]

theorem mem_dset {α β : Type} [DecidableEq α] (l : List (α × β)) (k : α)
    (v : β) : ∀ x ∈ dset l k v, x ∈ l ∨ x = (k, v) := by
  induction l with
  | nil => simp [dset]
  | cons e t ih =>
    intro x hx
    by_cases h : e.1 = k
    · simp only [dset, if_pos h] at hx
      rcases List.mem_cons.mp hx with rfl | hx
      · right; rfl
      · left; exact List.mem_cons_of_mem _ hx
    · simp only [dset, if_neg h] at hx
      rcases List.mem_cons.mp hx with rfl | hx
      · left; exact List.mem_cons_self _ _
      · rcases ih x hx with h2 | h2
        · left; exact List.mem_cons_of_mem _ h2
        · right; exact h2

theorem dget?_mem {α β : Type} [DecidableEq α] (l : List (α × β)) (k : α)
    (v : β) (h : dget? l k = some v) : (k, v) ∈ l := by
  induction l with
  | nil => simp [dget?] at h
  | cons e t ih =>
    by_cases he : e.1 = k
    · simp only [dget?, if_pos he, Option.some.injEq] at h
      have : e = (k, v) := Prod.ext he h
      rw [← this]; exact List.mem_cons_self _ _
    · simp only [dget?, if_neg he] at h
      exact List.mem_cons_of_mem _ (ih h)

theorem dset_not_mem {α β : Type} [DecidableEq α] (l : List (α × β)) (k : α)
    (v : β) (h : dget? l k = none) : dset l k v = l ++ [(k, v)] := by
  induction l with
  | nil => simp [dset]
  | cons e t ih =>
    by_cases he : e.1 = k
    · simp [dget?, he] at h
    · simp only [dget?, if_neg he] at h
      simp [dset, he, ih h]

theorem dget?_append {α β : Type} [DecidableEq α] (l1 l2 : List (α × β))
    (k : α) :
    dget? (l1 ++ l2) k =
      match dget? l1 k with
      | some v => some v
      | none => dget? l2 k := by
  induction l1 with
  | nil => simp [dget?]
  | cons e t ih =>
    by_cases he : e.1 = k
    · simp [dget?, he]
    · simp [dget?, he, ih]

/-! ## List getD / set / legal-action lemmas -/

theorem getD_set_self {α : Type} (l : List α) (i : ℕ) (v d : α)
    (h : i < l.length) : (l.set i v).getD i d = v := by
  rw [List.getD_eq_getD_get?, List.get?_set_eq_of_lt _ h]
  rfl

theorem getD_set_ne {α : Type} (l : List α) (i j : ℕ) (v d : α)
    (h : j ≠ i) : (l.set i v).getD j d = l.getD j d := by
  rw [List.getD_eq_getD_get?, List.get?_set_ne _ _ (fun hh => h hh.symm),
    ← List.getD_eq_getD_get?]

theorem mem_legalActionsOf (b : Board) (a : ℕ) :
    a ∈ legalActionsOf b ↔ a < b.length ∧ b.getD a 0 = 0 := by
  simp [legalActionsOf, List.mem_filter, List.mem_range]

theorem legalActionsOf_nodup (b : Board) : (legalActionsOf b).Nodup :=
  List.Nodup.filter _ (List.nodup_range _)

theorem legalActionsOf_eq_nil_iff (b : Board) :
    legalActionsOf b = [] ↔ ∀ p < b.length, b.getD p 0 ≠ 0 := by
  rw [List.eq_nil_iff_forall_not_mem]
  constructor
  · intro h p hp h0
    exact h p ((mem_legalActionsOf b p).mpr ⟨hp, h0⟩)
  · intro h a ha
    obtain ⟨hlt, h0⟩ := (mem_legalActionsOf b a).mp ha
    exact h a hlt h0

theorem countEmpty_eq_zero_iff (b : Board) :
    countEmpty b = 0 ↔ ∀ p < b.length, b.getD p 0 ≠ 0 := by
  rw [countEmpty, List.countP_eq_zero]
  constructor
  · intro h p hp h0
    have hm : b.getD p 0 ∈ b := by
      rw [List.getD_eq_getElem _ _ hp]
      exact List.getElem_mem _
    have := h _ hm
    rw [h0] at this
    simp at this
  · intro h x hx h0
    obtain ⟨i, hi, hg⟩ := List.mem_iff_getElem.mp hx
    have hx0 : x = 0 := by simpa using h0
    exact h i hi (by rw [List.getD_eq_getElem _ _ hi, hg, hx0])

theorem legalActionsOf_eq_nil_iff_countEmpty (b : Board) :
    legalActionsOf b = [] ↔ countEmpty b = 0 := by
  rw [legalActionsOf_eq_nil_iff, countEmpty_eq_zero_iff]

theorem countEmpty_set (b : Board) (a v : ℕ) (ha : a < b.length)
    (h0 : b.getD a 0 = 0) (hv : v ≠ 0) :
    countEmpty (b.set a v) + 1 = countEmpty b := by
  induction b generalizing a with
  | nil => simp at ha
  | cons c t ih =>
    cases a with
    | zero =>
      have hc : c = 0 := by simpa using h0
      subst hc
      simp [countEmpty, List.countP_cons, hv]
    | succ n =>
      have ha2 : n < t.length := by simpa using ha
      have h02 : t.getD n 0 = 0 := by simpa using h0
      have hrec := ih n ha2 h02
      simp only [countEmpty, List.set, List.countP_cons] at hrec ⊢
      omega

/-! ## Winner characterization -/

theorem is_winner_eq_any (b : Board) (m : ℕ) :
    is_winner b m =
      winLines.any (fun t => t.all (fun p => b.getD p 0 == m)) := by
  simp [is_winner, winLines, lineFilled, Bool.or_assoc]

theorem is_winner_iff (b : Board) (m : ℕ) :
    is_winner b m = true ↔ winsSpec b m := by
  rw [is_winner_eq_any]
  simp [winsSpec, List.any_eq_true, List.all_eq_true]

/-! ## First-maximum (Python max over dict keys) lemmas -/

theorem firstMaxP_mem (l : Inner) (best : ℕ × ℚ) :
    firstMaxP best l ∈ best :: l := by
  induction l generalizing best with
  | nil => simp [firstMaxP]
  | cons e t ih =>
    simp only [firstMaxP]
    by_cases h : best.2 < e.2
    · rw [if_pos h]
      rcases List.mem_cons.mp (ih e) with h2 | h2
      · rw [h2]; simp
      · simp [List.mem_cons_of_mem, h2]
    · rw [if_neg h]
      rcases List.mem_cons.mp (ih best) with h2 | h2
      · rw [h2]; simp
      · simp [List.mem_cons_of_mem, h2]

theorem firstMaxP_le (l : Inner) (best : ℕ × ℚ) :
    ∀ x ∈ best :: l, x.2 ≤ (firstMaxP best l).2 := by
  induction l generalizing best with
  | nil =>
    intro x hx
    rcases List.mem_cons.mp hx with rfl | hx
    · exact le_refl _
    · cases hx
  | cons e t ih =>
    intro x hx
    simp only [firstMaxP]
    by_cases h : best.2 < e.2
    · rw [if_pos h]
      rcases List.mem_cons.mp hx with rfl | hx
      · exact le_trans (le_of_lt h) (ih e _ (List.mem_cons_self _ _))
      · exact ih e _ hx
    · rw [if_neg h]
      rcases List.mem_cons.mp hx with heq | hx2
      · rw [heq]
        exact ih best _ (List.mem_cons_self _ _)
      · rcases List.mem_cons.mp hx2 with heq2 | hx3
        · rw [heq2]
          exact le_trans (not_lt.mp h) (ih best _ (List.mem_cons_self _ _))
        · exact ih best _ (List.mem_cons_of_mem _ hx3)

theorem firstMaxP_of_le (l : Inner) (best : ℕ × ℚ)
    (h : ∀ x ∈ l, x.2 ≤ best.2) : firstMaxP best l = best := by
  induction l with
  | nil => rfl
  | cons e t ih =>
    have hne : ¬best.2 < e.2 := not_lt.mpr (h e (List.mem_cons_self _ _))
    simp only [firstMaxP, if_neg hne]
    exact ih (fun x hx => h x (List.mem_cons_of_mem _ hx))

theorem firstMaxKey_mem (inn : Inner) (k : ℕ) (h : firstMaxKey inn = some k) :
    ∃ x ∈ inn, x.1 = k := by
  cases inn with
  | nil => simp [firstMaxKey] at h
  | cons e t =>
    simp only [firstMaxKey, Option.some.injEq] at h
    exact ⟨firstMaxP e t, firstMaxP_mem t e, h⟩

/-! ## Lazy-initialization fold lemmas -/

theorem dget?_insDefault_pres (inn : Inner) (a b : ℕ) (v : ℚ)
    (h : dget? inn a = some v) : dget? (insDefault inn b) a = some v := by
  unfold insDefault
  split
  · by_cases hab : a = b
    · subst hab
      rename_i hnone
      rw [h] at hnone
      simp at hnone
    · rw [dget?_dset_ne _ _ _ _ hab]; exact h
  · exact h

theorem dget?_foldIns_pres (l : List ℕ) (inn : Inner) (a : ℕ) (v : ℚ)
    (h : dget? inn a = some v) :
    dget? (l.foldl insDefault inn) a = some v := by
  induction l generalizing inn with
  | nil => exact h
  | cons b t ih => exact ih _ (dget?_insDefault_pres _ _ _ _ h)

theorem dget?_insDefault_self (inn : Inner) (a : ℕ) :
    dget? (insDefault inn a) a = some ((dget? inn a).getD 0) := by
  unfold insDefault
  rcases h : dget? inn a with _ | v
  · simp [h, dget?_dset_self]
  · simp [h]

theorem dget?_insDefault_ne (inn : Inner) (a b : ℕ) (h : a ≠ b) :
    dget? (insDefault inn b) a = dget? inn a := by
  unfold insDefault
  split
  · exact dget?_dset_ne _ _ _ _ h
  · rfl

theorem dget?_foldIns_mem (l : List ℕ) (inn : Inner) (a : ℕ) (h : a ∈ l) :
    dget? (l.foldl insDefault inn) a = some ((dget? inn a).getD 0) := by
  induction l generalizing inn with
  | nil => cases h
  | cons b t ih =>
    rw [List.foldl_cons]
    by_cases hab : a = b
    · subst hab
      exact dget?_foldIns_pres t _ a _ (dget?_insDefault_self inn a)
    · rcases List.mem_cons.mp h with rfl | hmem
      · exact absurd rfl hab
      · rw [ih _ hmem, dget?_insDefault_ne _ _ _ hab]

theorem mem_insDefault (inn : Inner) (b : ℕ) :
    ∀ x ∈ insDefault inn b, x ∈ inn ∨ x.1 = b := by
  unfold insDefault
  split
  · intro x hx
    rcases mem_dset _ _ _ x hx with h | rfl
    · exact Or.inl h
    · exact Or.inr rfl
  · intro x hx
    exact Or.inl hx

theorem mem_foldIns (l : List ℕ) (inn : Inner) :
    ∀ x ∈ l.foldl insDefault inn, x ∈ inn ∨ x.1 ∈ l := by
  induction l generalizing inn with
  | nil => intro x hx; exact Or.inl hx
  | cons b t ih =>
    intro x hx
    rw [List.foldl_cons] at hx
    rcases ih (insDefault inn b) x hx with h | h
    · rcases mem_insDefault inn b x h with h2 | h2
      · exact Or.inl h2
      · exact Or.inr (by rw [h2]; exact List.mem_cons_self _ _)
    · exact Or.inr (List.mem_cons_of_mem _ h)

theorem foldIns_disjoint : ∀ (l : List ℕ) (acc : Inner),
    (∀ a ∈ l, dget? acc a = none) → l.Nodup →
    l.foldl insDefault acc = acc ++ l.map (fun a => (a, (0 : ℚ))) := by
  intro l
  induction l with
  | nil => intro acc _ _; simp
  | cons a rest ih =>
    intro acc hnone hnd
    have ha : dget? acc a = none := hnone a (List.mem_cons_self _ _)
    have hstep : insDefault acc a = acc ++ [(a, (0 : ℚ))] := by
      rw [insDefault, if_pos (by rw [ha]; rfl), dset_not_mem _ _ _ ha]
    rw [List.foldl_cons, hstep,
      ih _ ?_ (List.Nodup.of_cons hnd)]
    · simp
    · intro x hx
      rw [dget?_append]
      rw [hnone x (List.mem_cons_of_mem _ hx)]
      have hxa : a ≠ x := fun hh => (List.nodup_cons.mp hnd).1 (hh ▸ hx)
      simp [dget?, hxa]

/-! ## Miscellaneous list lemmas -/

theorem choiceDraw_mem (r : Rng) (l : List ℕ) (h : l ≠ []) :
    (choiceDraw r l).1 ∈ l := by
  unfold choiceDraw
  have hlen : 0 < l.length := List.length_pos.mpr h
  have hmod : r.ints r.ipos % l.length < l.length := Nat.mod_lt _ hlen
  rw [List.getD_eq_getElem _ _ hmod]
  exact List.getElem_mem _

theorem getD_zip_mem {α β : Type} (l1 : List α) (l2 : List β) (i : ℕ)
    (d1 : α) (d2 : β) (h1 : i < l1.length) (h2 : i < l2.length) :
    (l1.getD i d1, l2.getD i d2) ∈ l1.zip l2 := by
  induction l1 generalizing l2 i with
  | nil => simp at h1
  | cons a t1 ih =>
    cases l2 with
    | nil => simp at h2
    | cons b t2 =>
      cases i with
      | zero => simp
      | succ n =>
        have hn1 : n < t1.length := by simpa using h1
        have hn2 : n < t2.length := by simpa using h2
        simpa using Or.inr (ih t2 n hn1 hn2)

theorem zip_append_single {α β : Type} (l1 : List α) (l2 : List β)
    (x : α) (y : β) (h : l1.length = l2.length) :
    (l1 ++ [x]).zip (l2 ++ [y]) = l1.zip l2 ++ [(x, y)] := by
  induction l1 generalizing l2 with
  | nil =>
    cases l2 with
    | nil => simp
    | cons b t2 => simp at h
  | cons a t1 ih =>
    cases l2 with
    | nil => simp at h
    | cons b t2 =>
      have : t1.length = t2.length := by simpa using h
      simp [ih t2 this]

/-! ## Action-selection lemmas -/

theorem ensure_dget? (Q : QTable) (b : Board) :
    dget? (ensureBoard Q b) b = some ((dget? Q b).getD []) := by
  unfold ensureBoard
  rcases h : dget? Q b with _ | inn
  · simp [h, dget?_dset_self]
  · simp [h]

theorem ensure_dget?_ne (Q : QTable) (b b' : Board) (h : b' ≠ b) :
    dget? (ensureBoard Q b) b' = dget? Q b' := by
  unfold ensureBoard
  split
  · exact dget?_dset_ne _ _ _ _ h
  · rfl

theorem QInv_dset (Q : QTable) (b : Board) (inn : Inner) (hQ : QInv Q)
    (hinn : ∀ e ∈ inn, e.1 < b.length ∧ b.getD e.1 0 = 0) :
    QInv (dset Q b inn) := by
  intro p hp
  rcases mem_dset _ _ _ p hp with h | h
  · exact hQ p h
  · rw [h]
    intro e he
    exact hinn e he

theorem QInv_inner (Q : QTable) (b : Board) (hQ : QInv Q) :
    ∀ e ∈ (dget? Q b).getD [], e.1 < b.length ∧ b.getD e.1 0 = 0 := by
  rcases h : dget? Q b with _ | inn
  · simp
  · intro e he
    exact hQ _ (dget?_mem _ _ _ h) e (by simpa using he)

theorem ensureBoard_QInv (Q : QTable) (b : Board) (hQ : QInv Q) :
    QInv (ensureBoard Q b) := by
  unfold ensureBoard
  split
  · exact QInv_dset Q b [] hQ (by simp)
  · exact hQ

theorem exploitChoice_mem (Q : QTable) (b : Board)
    (hQ : ∀ x ∈ (dget? Q b).getD [], x.1 ∈ legalActionsOf b)
    (hne : legalActionsOf b ≠ []) :
    (exploitChoice Q b).1 ∈ legalActionsOf b := by
  obtain ⟨a0, l0, hl⟩ : ∃ a0 l0, legalActionsOf b = a0 :: l0 :=
    List.exists_cons_of_ne_nil hne
  have ha0 : a0 ∈ legalActionsOf b := by rw [hl]; exact List.mem_cons_self _ _
  have hsome := dget?_foldIns_mem (legalActionsOf b)
    ((dget? Q b).getD []) a0 ha0
  unfold exploitChoice
  rcases hinn2 : (legalActionsOf b).foldl insDefault ((dget? Q b).getD [])
    with _ | ⟨e, rest⟩
  · rw [hinn2] at hsome
    simp [dget?] at hsome
  · simp only [hinn2, firstMaxKey, Option.getD_some]
    obtain ⟨x, hx, hxk⟩ := firstMaxKey_mem (e :: rest) (firstMaxP e rest).1 rfl
    rw [← hinn2] at hx
    rcases mem_foldIns _ _ x hx with h | h
    · rw [← hxk]
      exact hQ x h
    · rw [← hxk]
      exact h

theorem ensureBoard_inner_legal (Q : QTable) (b : Board) (hQ : QInv Q) :
    ∀ x ∈ (dget? (ensureBoard Q b) b).getD [], x.1 ∈ legalActionsOf b := by
  intro x hx
  have := QInv_inner _ b (ensureBoard_QInv Q b hQ) x hx
  exact (mem_legalActionsOf _ _).mpr this

theorem getAction_mem (Q : QTable) (env : EnvState) (eps : ℚ)
    (hQ : QInv Q) (hne : legalActionsOf env.board ≠ []) :
    (getAction Q env eps).1 ∈ legalActionsOf env.board := by
  unfold getAction
  split
  · split
    · exact choiceDraw_mem _ _ hne
    · exact exploitChoice_mem _ _ (ensureBoard_inner_legal Q env.board hQ) hne
  · exact exploitChoice_mem _ _ (ensureBoard_inner_legal Q env.board hQ) hne

theorem exploitChoice_QInv (Q : QTable) (b : Board) (hQ : QInv Q) :
    QInv (exploitChoice Q b).2 := by
  unfold exploitChoice
  apply QInv_dset _ _ _ hQ
  intro e he
  rcases mem_foldIns _ _ e he with h | h
  · exact QInv_inner _ b hQ e h
  · exact (mem_legalActionsOf _ _).mp h

theorem exploreUpdate_QInv (Q : QTable) (b : Board) (a : ℕ) (hQ : QInv Q)
    (ha : a ∈ legalActionsOf b) : QInv (exploreUpdate Q b a) := by
  unfold exploreUpdate
  split
  · apply QInv_dset _ _ _ hQ
    intro e he
    rcases mem_dset _ _ _ e he with h | h
    · exact QInv_inner _ b hQ e h
    · rw [h]
      exact (mem_legalActionsOf _ _).mp ha
  · exact hQ

theorem getAction_QInv (Q : QTable) (env : EnvState) (eps : ℚ)
    (hQ : QInv Q) (hne : legalActionsOf env.board ≠ []) :
    QInv (getAction Q env eps).2.1 := by
  unfold getAction
  split
  · split
    · exact exploreUpdate_QInv _ _ _ (ensureBoard_QInv Q env.board hQ)
        (choiceDraw_mem _ _ hne)
    · exact exploitChoice_QInv _ _ (ensureBoard_QInv Q env.board hQ)
  · exact exploitChoice_QInv _ _ (ensureBoard_QInv Q env.board hQ)

/-! ## Step and loop-body accessor lemmas -/

theorem stepE_board (env : EnvState) (a : ℕ) :
    (stepE env a).env.board = env.board.set a env.turn := rfl

theorem stepE_turn (env : EnvState) (a : ℕ) :
    (stepE env a).env.turn = if env.turn = 1 then 2 else 1 := rfl

theorem stepE_count (env : EnvState) (a : ℕ) :
    (stepE env a).env.countMoves = env.countMoves + 1 := rfl

theorem stepE_rng (env : EnvState) (a : ℕ) :
    (stepE env a).env.rng = env.rng := rfl

theorem stepE_terminated (env : EnvState) (a : ℕ) :
    (stepE env a).terminated =
      (is_winner (env.board.set a env.turn) env.turn ||
       (legalActionsOf (env.board.set a env.turn)).isEmpty) := rfl

theorem loopBody_Q (eps : ℚ) (st : EpState) :
    (loopBody eps st).Q = (getAction st.Q st.env eps).2.1 := by
  unfold loopBody
  split <;> rfl

theorem loopBody_board (eps : ℚ) (st : EpState) :
    (loopBody eps st).env.board =
      st.env.board.set (getAction st.Q st.env eps).1 st.env.turn := by
  unfold loopBody
  split <;> rfl

theorem loopBody_turn (eps : ℚ) (st : EpState) :
    (loopBody eps st).env.turn = if st.env.turn = 1 then 2 else 1 := by
  unfold loopBody
  split <;> rename_i h <;> simp [stepE_turn, h]

theorem loopStop_eq (eps : ℚ) (st : EpState) :
    loopStop eps st =
      (is_winner (st.env.board.set (getAction st.Q st.env eps).1 st.env.turn)
          st.env.turn ||
       (legalActionsOf
          (st.env.board.set (getAction st.Q st.env eps).1
            st.env.turn)).isEmpty) := rfl

theorem TrajOK_append (t : Traj) (b : Board) (a : ℕ) (r : ℚ)
    (ht : TrajOK t) (ha : a < b.length) (h0 : b.getD a 0 = 0) :
    TrajOK (appendStep t b a r) := by
  constructor
  · simp [appendStep, ht.1]
  · intro p hp
    simp only [appendStep] at hp
    rw [zip_append_single _ _ _ _ ht.1.symm] at hp
    rcases List.mem_append.mp hp with h | h
    · exact ht.2 p h
    · have hpba : p = (b, a) := by simpa using h
      rw [hpba]
      exact ⟨ha, h0⟩

theorem loopBody_TrajOK (eps : ℚ) (st : EpState)
    (hQ : QInv st.Q) (hne : legalActionsOf st.env.board ≠ [])
    (h1 : TrajOK st.seq1) (h2 : TrajOK st.seq2) :
    TrajOK (loopBody eps st).seq1 ∧ TrajOK (loopBody eps st).seq2 := by
  have hmem := getAction_mem st.Q st.env eps hQ hne
  obtain ⟨halt, h0⟩ := (mem_legalActionsOf _ _).mp hmem
  unfold loopBody
  split
  · exact ⟨TrajOK_append _ _ _ _ h1 halt h0, h2⟩
  · exact ⟨h1, TrajOK_append _ _ _ _ h2 halt h0⟩

/-! ## The episode loop reaches a terminal step within nine iterations -/

theorem playLoop_spec (eps : ℚ) : ∀ (fuel : ℕ) (st : EpState),
    QInv st.Q → st.env.turn ≠ 0 →
    legalActionsOf st.env.board ≠ [] →
    countEmpty st.env.board ≤ fuel →
    TrajOK st.seq1 → TrajOK st.seq2 →
    (playLoop eps fuel st).2 = true ∧
    QInv (playLoop eps fuel st).1.Q ∧
    TrajOK (playLoop eps fuel st).1.seq1 ∧
    TrajOK (playLoop eps fuel st).1.seq2 := by
  intro fuel
  induction fuel with
  | zero =>
    intro st hQ hturn hleg hcount _ _
    exact absurd ((legalActionsOf_eq_nil_iff_countEmpty _).mpr
      (Nat.le_zero.mp hcount)) hleg
  | succ n ih =>
    intro st hQ hturn hleg hcount h1 h2
    have hmem := getAction_mem st.Q st.env eps hQ hleg
    obtain ⟨halt, h0⟩ := (mem_legalActionsOf _ _).mp hmem
    have hQ2 : QInv (loopBody eps st).Q := by
      rw [loopBody_Q]
      exact getAction_QInv st.Q st.env eps hQ hleg
    have hseq := loopBody_TrajOK eps st hQ hleg h1 h2
    have hturn2 : (loopBody eps st).env.turn ≠ 0 := by
      rw [loopBody_turn]
      split <;> simp
    have hcount2 : countEmpty (loopBody eps st).env.board + 1 =
        countEmpty st.env.board := by
      rw [loopBody_board]
      exact countEmpty_set _ _ _ halt h0 hturn
    rw [playLoop]
    by_cases hstop : loopStop eps st
    · rw [if_pos hstop]
      exact ⟨rfl, hQ2, hseq.1, hseq.2⟩
    · rw [if_neg hstop]
      apply ih (loopBody eps st) hQ2 hturn2 ?_ ?_ hseq.1 hseq.2
      · intro hnil
        rw [loopBody_board] at hnil
        apply hstop
        rw [loopStop_eq, hnil]
        simp
      · omega

theorem TrajOK_episodeTraj1 (st : EpState) (h : TrajOK st.seq1) :
    TrajOK (episodeTraj1 st) := h

theorem TrajOK_episodeTraj2 (st : EpState) (h : TrajOK st.seq2) :
    TrajOK (episodeTraj2 st) := h

theorem QInv_dset2 (Q : QTable) (b : Board) (a : ℕ) (v : ℚ) (hQ : QInv Q)
    (ha : a < b.length) (h0 : b.getD a 0 = 0) : QInv (dset2 Q b a v) := by
  unfold dset2
  apply QInv_dset _ _ _ hQ
  intro e he
  rcases mem_dset _ _ _ e he with h | h
  · exact QInv_inner _ b hQ e h
  · rw [h]
    exact ⟨ha, h0⟩

theorem backwardPass_QInv (lr : ℚ) (t : Traj) (Q : QTable)
    (hQ : QInv Q) (ht : TrajOK t) : QInv (backwardPass lr t Q) := by
  unfold backwardPass
  have main : ∀ (l : List ℕ) (q : QTable), (∀ j ∈ l, j < t.boards.length) →
      QInv q →
      QInv (l.foldl (fun q2 idx => qUpdate lr q2 (t.boards.getD idx [])
        (t.actions.getD idx 0) ((t.rewards.drop idx).sum)) q) := by
    intro l
    induction l with
    | nil =>
      intro q _ hq
      exact hq
    | cons j rest ih =>
      intro q hj hq
      rw [List.foldl_cons]
      apply ih _ (fun x hx => hj x (List.mem_cons_of_mem _ hx))
      have hjb : j < t.boards.length := hj j (List.mem_cons_self _ _)
      have hja : j < t.actions.length := by rw [ht.1]; exact hjb
      have hz := getD_zip_mem t.boards t.actions j [] 0 hjb hja
      have hleg := ht.2 _ hz
      unfold qUpdate
      exact QInv_dset2 _ _ _ _ hq hleg.1 hleg.2
  exact main _ Q (fun j hj => List.mem_range.mp hj) hQ

/-! ## Concrete generators and states for witnesses and counterexamples -/

/-- A constant-stream generator: every uniform draw is 0 and every
choice draw selects index 0. -/
def cSrc : ℤ → Rng := fun _ =>
  { floats := fun _ => 0, ints := fun _ => 0, fpos := 0, ipos := 0 }

/-- A generator scripting the spec's backward-pass scenario: every move
explores (draws 0 below epsilon) and the choice indices 0, 2, 0, 1, 0
select cells 0, 3, 1, 4, 2 from the shrinking legal-action lists, so X
plays 0, 1, 2 and O plays 3, 4, with X winning on move 5. -/
def scriptSrc : ℤ → Rng := fun _ =>
  { floats := fun _ => 0, ints := fun n => [0, 2, 0, 1, 0].getD n 0,
    fpos := 0, ipos := 0 }

/-- A generator whose choice draws always select index 1. -/
def pickSrc : ℤ → Rng := fun _ =>
  { floats := fun _ => 0, ints := fun _ => 1, fpos := 0, ipos := 0 }

/-- A state whose cell 0 is already occupied by X, with O to move. -/
def envOcc : EnvState :=
  { board := [1,0,0, 0,0,0, 0,0,0], turn := 2, countMoves := 1,
    rng := cSrc 0 }

/-- A state in which O already holds the top row while X is to move. -/
def envOwin : EnvState :=
  { board := [2,2,2, 1,1,0, 0,0,0], turn := 1, countMoves := 5,
    rng := cSrc 0 }

/-! ## Claim theorems -/

attribute [local semireducible] Rat.add Rat.mul Rat.inv Rat.sub

/-- C7: for every board and mark, is_winner returns true iff at least
one of the eight fixed triples (rows 0-1-2, 3-4-5, 6-7-8; columns
0-3-6, 1-4-7, 2-5-8; diagonals 0-4-8, 2-4-6) has all three cells equal
to that mark; in particular a board with no such filled triple for the
mark reports false. -/
theorem C7_winner_complete (b : Board) (m : ℕ) :
    is_winner b m = true ↔ winsSpec b m :=
  is_winner_iff b m

/-- C3 counterexample: invoking step on the already-occupied cell 0
raises nothing and does not leave the state unchanged: the cell is
overwritten with O's mark, the move counter increments, and the turn
flips, contradicting the claim that an IllegalActionError is raised
with no observable state change. -/
theorem C3_counterexample :
    (stepE envOcc 0).env.board = [2,0,0, 0,0,0, 0,0,0] ∧
    (stepE envOcc 0).env.board ≠ envOcc.board ∧
    (stepE envOcc 0).env.countMoves = 2 ∧
    (stepE envOcc 0).env.turn = 1 := by
  decide

/-- C3 amended: step performs no legality check: for every state and
every in-range action whose cell is not EMPTY, the action is silently
applied - the occupied cell is overwritten with the mover's mark, the
move counter increments by one, and the turn flips; no error is
raised (no IllegalActionError exists in the code). -/
theorem C3_amended (env : EnvState) (a : ℕ) (ha : a < env.board.length)
    (_hocc : env.board.getD a 0 ≠ 0) :
    (stepE env a).env.board = env.board.set a env.turn ∧
    (stepE env a).env.board.getD a 0 = env.turn ∧
    (stepE env a).env.countMoves = env.countMoves + 1 ∧
    (stepE env a).env.turn = (if env.turn = 1 then 2 else 1) := by
  refine ⟨rfl, ?_, rfl, rfl⟩
  rw [stepE_board]
  exact getD_set_self _ _ _ _ ha

theorem C3_amended_witness :
    0 < envOcc.board.length ∧ envOcc.board.getD 0 0 ≠ 0 ∧
    ((stepE envOcc 0).env.board = envOcc.board.set 0 envOcc.turn ∧
     (stepE envOcc 0).env.board.getD 0 0 = envOcc.turn ∧
     (stepE envOcc 0).env.countMoves = envOcc.countMoves + 1 ∧
     (stepE envOcc 0).env.turn = (if envOcc.turn = 1 then 2 else 1)) :=
  ⟨by decide, by decide, C3_amended envOcc 0 (by decide) (by decide)⟩

/-- C6 counterexample: from a state where O already holds the top row,
X stepping at cell 6 yields terminated = false although a player (O)
has a winning line on the resulting board and empty cells remain: the
step checks only the mover's mark, so "some player has a winning line"
does not imply the reported terminal flag. -/
theorem C6_counterexample :
    (stepE envOwin 6).terminated = false ∧
    winsSpec (stepE envOwin 6).env.board 2 := by
  constructor
  · decide
  · exact (is_winner_iff _ _).mp (by decide)

/-- C6 amended: the terminal flag reported by a step is true iff the
player who just moved has a winning line on the updated board or no
empty cell remains; the other player's lines are not consulted (they
cannot exist in an episode that stops at the first terminal state). -/
theorem C6_amended (env : EnvState) (a : ℕ) (hlen : env.board.length = 9) :
    (stepE env a).terminated = true ↔
      (winsSpec (env.board.set a env.turn) env.turn ∨
       ∀ p < 9, (env.board.set a env.turn).getD p 0 ≠ 0) := by
  have hlen2 : (env.board.set a env.turn).length = 9 := by simp [hlen]
  rw [stepE_terminated, Bool.or_eq_true, is_winner_iff, List.isEmpty_iff,
    legalActionsOf_eq_nil_iff, hlen2]

theorem C6_amended_witness :
    envOwin.board.length = 9 ∧
    ((stepE envOwin 6).terminated = true ↔
      (winsSpec (envOwin.board.set 6 envOwin.turn) envOwin.turn ∨
       ∀ p < 9, (envOwin.board.set 6 envOwin.turn).getD p 0 ≠ 0)) :=
  ⟨by decide, C6_amended envOwin 6 (by decide)⟩

/-- C8: from a non-terminal state, a step with a legal action changes
exactly the acted cell (set to the mover's mark; every other cell is
untouched), flips the turn, increments the move counter by exactly one,
and touches no randomness (the generator state is returned unchanged);
being a pure function of (state, action), re-running it on the same
input yields an identical result. -/
theorem C8_transition_frame (env : EnvState) (a : ℕ)
    (hturn : env.turn = 1 ∨ env.turn = 2)
    (_hterm : is_winner env.board 1 = false ∧ is_winner env.board 2 = false)
    (hleg : a ∈ legalActionsOf env.board) :
    (stepE env a).env.board.getD a 0 = env.turn ∧
    (stepE env a).env.board.getD a 0 ≠ env.board.getD a 0 ∧
    (∀ j, j ≠ a → (stepE env a).env.board.getD j 0 = env.board.getD j 0) ∧
    (stepE env a).env.turn = (if env.turn = 1 then 2 else 1) ∧
    (stepE env a).env.turn ≠ env.turn ∧
    (stepE env a).env.countMoves = env.countMoves + 1 ∧
    (stepE env a).env.rng = env.rng := by
  obtain ⟨ha, h0⟩ := (mem_legalActionsOf _ _).mp hleg
  have hset : (stepE env a).env.board.getD a 0 = env.turn := by
    rw [stepE_board]
    exact getD_set_self _ _ _ _ ha
  refine ⟨hset, ?_, ?_, rfl, ?_, rfl, rfl⟩
  · rw [hset, h0]
    rcases hturn with h | h <;> rw [h] <;> decide
  · intro j hj
    rw [stepE_board]
    exact getD_set_ne _ _ _ _ _ hj
  · rw [stepE_turn]
    rcases hturn with h | h <;> rw [h] <;> decide

theorem C8_witness :
    ((envReset (cSrc 0)).turn = 1 ∨ (envReset (cSrc 0)).turn = 2) ∧
    (is_winner (envReset (cSrc 0)).board 1 = false ∧
     is_winner (envReset (cSrc 0)).board 2 = false) ∧
    4 ∈ legalActionsOf (envReset (cSrc 0)).board ∧
    ((stepE (envReset (cSrc 0)) 4).env.board.getD 4 0 =
        (envReset (cSrc 0)).turn ∧
     (stepE (envReset (cSrc 0)) 4).env.board.getD 4 0 ≠
        (envReset (cSrc 0)).board.getD 4 0 ∧
     (∀ j, j ≠ 4 → (stepE (envReset (cSrc 0)) 4).env.board.getD j 0 =
        (envReset (cSrc 0)).board.getD j 0) ∧
     (stepE (envReset (cSrc 0)) 4).env.turn =
        (if (envReset (cSrc 0)).turn = 1 then 2 else 1) ∧
     (stepE (envReset (cSrc 0)) 4).env.turn ≠ (envReset (cSrc 0)).turn ∧
     (stepE (envReset (cSrc 0)) 4).env.countMoves =
        (envReset (cSrc 0)).countMoves + 1 ∧
     (stepE (envReset (cSrc 0)) 4).env.rng = (envReset (cSrc 0)).rng) :=
  ⟨by decide, by decide, by decide,
   C8_transition_frame (envReset (cSrc 0)) 4 (by decide) (by decide)
     (by decide)⟩

/-- C9 counterexample: the trainer validates nothing: with
epsilon = 2 (outside [0,1)) training proceeds and populates the table
rather than raising, and with numGames = -5 the loop silently runs
zero episodes and returns the empty table; no
InvalidConfigurationError is raised in either case (none exists in the
code). -/
theorem C9_counterexample :
    learn cSrc 0 2 (1/10) 1 ≠ [] ∧
    learn cSrc 0 (1/2) (1/10) (-5) = [] := by
  constructor
  · decide
  · rfl

/-- C9 amended: the trainer performs no configuration validation: a
nonpositive numGames silently yields zero episodes and the empty table
(no error is raised), and out-of-range epsilon or learningRate values
are consumed as-is by training. -/
theorem C9_amended (src : ℤ → Rng) (seed : ℤ) (eps lr : ℚ)
    (numGames : ℤ) (h : numGames ≤ 0) :
    learn src seed eps lr numGames = [] := by
  have h0 : numGames.toNat = 0 := Int.toNat_of_nonpos h
  unfold learn
  rw [h0]
  rfl

theorem C9_amended_witness :
    (-1 : ℤ) ≤ 0 ∧ learn cSrc 0 (1/2) (1/10) (-1) = [] :=
  ⟨by decide, C9_amended cSrc 0 (1/2) (1/10) (-1) (by decide)⟩

/-- C1 counterexample: in the spec's concrete scenario (one game,
learning rate 0.1, empty prior table, X playing cells 0, 1, 2 and O
playing 3, 4 with X winning on move 5), X makes only three moves, so
X's recorded rewards are THREE entries of -0.01 followed by the
appended terminal +1 (not four), the return from X's first move is
3*(-0.01) + 1 = 0.97 (not 0.96), and Q(empty-board-key, 0) after the
backward pass is 0.1 * 0.97 = 0.097, not 0.096. -/
theorem C1_counterexample :
    (runEpisode (scriptSrc 0) (1/2) (1/10) []).t1.actions = [0, 1, 2] ∧
    (runEpisode (scriptSrc 0) (1/2) (1/10) []).t2.actions = [3, 4] ∧
    (runEpisode (scriptSrc 0) (1/2) (1/10) []).t1.rewards =
      [-(1/100), -(1/100), -(1/100), 1] ∧
    dget2? (learn scriptSrc 0 (1/2) (1/10) 1) [0,0,0, 0,0,0, 0,0,0] 0 =
      some (97/1000) ∧
    (97 : ℚ)/1000 ≠ 96/1000 := by
  decide

/-- C1 amended: in that scenario X's recorded reward sequence is three
entries of -0.01 followed by the appended terminal +1, the return from
X's first move is 3*(-0.01) + 1 = 0.97, and after the backward pass
Q(empty-board-key, 0) = 0.1 * 0.97 = 0.097 (prior value 0), per the
update Q += learningRate * (returnFromHere - Q) with returnFromHere
the undiscounted sum of that player's rewards from that index onward. -/
theorem C1_amended :
    (runEpisode (scriptSrc 0) (1/2) (1/10) []).t1.rewards =
      [-(1/100), -(1/100), -(1/100), 1] ∧
    ((runEpisode (scriptSrc 0) (1/2) (1/10) []).t1.rewards.drop 0).sum =
      97/100 ∧
    dget2? (learn scriptSrc 0 (1/2) (1/10) 1) [0,0,0, 0,0,0, 0,0,0] 0 =
      some ((1/10) * (97/100)) := by
  decide

theorem TrajOK_nil : TrajOK ⟨[], [], []⟩ :=
  ⟨rfl, fun p hp => absurd hp (List.not_mem_nil p)⟩

/-- C10: every self-play episode's game loop reaches a terminal step
within at most nine iterations: under the table invariant QInv (every
recorded action key denotes an empty cell of its key board - true of
the empty table the trainer starts from), each selected action fills a
currently-empty cell, the number of empty cells strictly decreases,
and a full board is classified terminal; moreover the invariant is
preserved by the whole episode including its backward pass, so it
holds at every episode of a training run. -/
theorem C10_episode_terminates (rng : Rng) (eps lr : ℚ) (Q : QTable)
    (hQ : QInv Q) :
    (runEpisode rng eps lr Q).done = true ∧
    QInv (runEpisode rng eps lr Q).Q := by
  obtain ⟨hdone, hQ2, ht1, ht2⟩ := playLoop_spec eps 9 (initEp rng Q) hQ
    (by decide : (1 : ℕ) ≠ 0)
    (by decide : legalActionsOf [0,0,0, 0,0,0, 0,0,0] ≠ [])
    (by decide : countEmpty [0,0,0, 0,0,0, 0,0,0] ≤ 9)
    TrajOK_nil TrajOK_nil
  refine ⟨hdone, ?_⟩
  exact backwardPass_QInv lr _ _
    (backwardPass_QInv lr _ _ hQ2 (TrajOK_episodeTraj1 _ ht1))
    (TrajOK_episodeTraj2 _ ht2)

theorem C10_witness :
    QInv ([] : QTable) ∧
    ((runEpisode (cSrc 0) 0 (1/10) []).done = true ∧
     QInv (runEpisode (cSrc 0) 0 (1/10) []).Q) :=
  ⟨fun p hp => absurd hp (List.not_mem_nil p),
   C10_episode_terminates (cSrc 0) 0 (1/10) []
     (fun p hp => absurd hp (List.not_mem_nil p))⟩

theorem learnLoop_eq_fold (src : ℤ → Rng) (eps lr : ℚ)
    (numGames seed : ℤ) :
    ∀ (fuel i : ℕ) (Q : QTable), i + fuel = numGames.toNat →
      learnLoop src eps lr numGames seed fuel i Q =
        (List.range' i fuel).foldl
          (fun q (j : ℕ) => (runEpisode (src (seed + j)) eps lr q).Q) Q := by
  intro fuel
  induction fuel with
  | zero =>
    intro i Q _
    rfl
  | succ n ih =>
    intro i Q h
    have hlt : (i : ℤ) < numGames := by omega
    rw [learnLoop, if_pos hlt, List.range'_succ, List.foldl_cons]
    exact ih (i + 1) _ (by omega)

/-- C4: a training run is a pure function of (randomSource, baseSeed,
epsilon, learningRate, numGames): learn equals the fold of the
per-episode table update over episode indices 0..numGames-1, where
episode i draws all of its randomness from the source freshly seeded
with baseSeed + i (env.reset(seed=seed+i)); two runs with identical
parameters therefore produce identical value tables, keys and values. -/
theorem C4_reproducible (src : ℤ → Rng) (seed : ℤ) (eps lr : ℚ)
    (numGames : ℤ) :
    learn src seed eps lr numGames =
      (List.range numGames.toNat).foldl
        (fun q (j : ℕ) => (runEpisode (src (seed + j)) eps lr q).Q) [] := by
  unfold learn
  rw [List.range_eq_range']
  exact learnLoop_eq_fold src eps lr numGames seed numGames.toNat 0 []
    (by omega)

theorem dget2?_eq_inner (Q : QTable) (b : Board) (a : ℕ) :
    dget2? Q b a = dget? ((dget? Q b).getD []) a := by
  unfold dget2?
  rcases h : dget? Q b with _ | inn
  · simp [dget?]
  · simp

theorem ensureBoard_inner (Q : QTable) (b : Board) :
    (dget? (ensureBoard Q b) b).getD [] = (dget? Q b).getD [] := by
  rw [ensure_dget?]
  rfl

theorem exploit_lazy (Q : QTable) (b : Board) :
    ∀ a ∈ legalActionsOf b,
      dget2? (exploitChoice (ensureBoard Q b) b).2 b a =
        some ((dget2? Q b a).getD 0) := by
  intro a ha
  have h2 : (exploitChoice (ensureBoard Q b) b).2 =
      dset (ensureBoard Q b) b ((legalActionsOf b).foldl insDefault
        ((dget? (ensureBoard Q b) b).getD [])) := rfl
  rw [h2, dget2?_eq_inner _ b a, dget?_dset_self]
  simp only [Option.getD_some]
  rw [dget?_foldIns_mem _ _ _ ha, ensureBoard_inner, dget2?_eq_inner Q b a]

theorem explore_lazy (Q : QTable) (b : Board) (c : ℕ) :
    dget2? (exploreUpdate (ensureBoard Q b) b c) b c =
      some ((dget2? Q b c).getD 0) ∧
    ∀ a, a ≠ c → dget2? (exploreUpdate (ensureBoard Q b) b c) b a =
      dget2? Q b a := by
  unfold exploreUpdate
  rw [ensureBoard_inner]
  split
  · rename_i hnone
    rw [Option.isNone_iff_eq_none] at hnone
    constructor
    · rw [dget2?_eq_inner _ b c, dget?_dset_self]
      simp only [Option.getD_some]
      rw [dget?_dset_self, dget2?_eq_inner Q b c, hnone]
      rfl
    · intro a hac
      rw [dget2?_eq_inner _ b a, dget?_dset_self]
      simp only [Option.getD_some]
      rw [dget?_dset_ne _ _ _ _ hac, dget2?_eq_inner Q b a]
  · rename_i hsome
    constructor
    · rw [dget2?_eq_inner _ b c, ensureBoard_inner, dget2?_eq_inner Q b c]
      rcases hv : dget? ((dget? Q b).getD []) c with _ | v
      · rw [hv] at hsome
        simp at hsome
      · simp
    · intro a _
      rw [dget2?_eq_inner _ b a, ensureBoard_inner, dget2?_eq_inner Q b a]

/-- C5: asymmetric lazy initialization of the table by action selection:
on the exploration branch (epsilon > 0 and the next uniform draw below
epsilon) the chosen action's entry exists afterwards (created with
value 0 only if absent, an existing value untouched) while no other
action's entry for the state is created or modified; on the
exploitation branch every legal action of the state has an entry
afterwards (default 0 if newly created, existing values untouched). -/
theorem C5_lazy_init (Q : QTable) (env : EnvState) (eps : ℚ) :
    if 0 < eps ∧ env.rng.floats env.rng.fpos < eps then
      (dget2? (getAction Q env eps).2.1 env.board (getAction Q env eps).1 =
         some ((dget2? Q env.board (getAction Q env eps).1).getD 0) ∧
       ∀ a, a ≠ (getAction Q env eps).1 →
         dget2? (getAction Q env eps).2.1 env.board a =
           dget2? Q env.board a)
    else
      ∀ a ∈ legalActionsOf env.board,
        dget2? (getAction Q env eps).2.1 env.board a =
          some ((dget2? Q env.board a).getD 0) := by
  by_cases h1 : 0 < eps
  · by_cases h2 : env.rng.floats env.rng.fpos < eps
    · rw [if_pos ⟨h1, h2⟩]
      have hga : getAction Q env eps =
          ((choiceDraw (randomDraw env.rng).2 (legalActionsOf env.board)).1,
           exploreUpdate (ensureBoard Q env.board) env.board
             (choiceDraw (randomDraw env.rng).2 (legalActionsOf env.board)).1,
           (choiceDraw (randomDraw env.rng).2 (legalActionsOf env.board)).2) := by
        have h2x : (randomDraw env.rng).1 < eps := h2
        unfold getAction
        rw [if_pos h1, if_pos h2x]
      rw [hga]
      exact explore_lazy Q env.board _
    · rw [if_neg (fun hc => h2 hc.2)]
      have hga : getAction Q env eps =
          ((exploitChoice (ensureBoard Q env.board) env.board).1,
           (exploitChoice (ensureBoard Q env.board) env.board).2,
           (randomDraw env.rng).2) := by
        have h2x : ¬(randomDraw env.rng).1 < eps := h2
        unfold getAction
        rw [if_pos h1, if_neg h2x]
      rw [hga]
      exact exploit_lazy Q env.board
  · rw [if_neg (fun hc => h1 hc.1)]
    have hga : getAction Q env eps =
        ((exploitChoice (ensureBoard Q env.board) env.board).1,
         (exploitChoice (ensureBoard Q env.board) env.board).2,
         env.rng) := by
      unfold getAction
      rw [if_neg h1]
    rw [hga]
    exact exploit_lazy Q env.board

theorem C5_witness :
    dget2? (getAction [] (envReset (pickSrc 0)) 1).2.1
        (envReset (pickSrc 0)).board
        (getAction [] (envReset (pickSrc 0)) 1).1 =
      some ((dget2? [] (envReset (pickSrc 0)).board
        (getAction [] (envReset (pickSrc 0)) 1).1).getD 0) := by
  have h := C5_lazy_init [] (envReset (pickSrc 0)) 1
  rw [if_pos (⟨by decide, by decide⟩ : (0 : ℚ) < 1 ∧
    (envReset (pickSrc 0)).rng.floats (envReset (pickSrc 0)).rng.fpos < 1)]
    at h
  exact h.1

/-- C2 counterexample: starting from the empty table at the empty board,
an exploration call (epsilon 1/2, draw 0) picks action 1 and creates
only its entry; the subsequent greedy call at the same state returns 1
even though every value ties at 0 and the first maximal action in
ascending legal order is 0: ties follow the table's insertion order,
which does depend on how entries for the state were previously created. -/
theorem C2_counterexample :
    (getAction (getAction [] (envReset (pickSrc 0)) (1/2)).2.1
      { envReset (pickSrc 0) with
          rng := (getAction [] (envReset (pickSrc 0)) (1/2)).2.2 } 0).1 = 1 ∧
    (legalActionsOf (envReset (pickSrc 0)).board).headI = 0 ∧
    (1 : ℕ) ≠ 0 := by
  decide

/-- C2 amended: the greedy (exploitation) branch returns an action
holding a maximal value among the table entries of the state, with
ties broken by the insertion order of those entries (first maximal in
dict iteration order); this coincides with the ascending legal-action
order only when the state had no previously created entries, in which
case (all fresh values tying at 0) the first legal action is returned. -/
theorem C2_amended (Q : QTable) (env : EnvState)
    (hne : legalActionsOf env.board ≠ []) :
    ∃ inn, dget? (getAction Q env 0).2.1 env.board = some inn ∧
      ∃ v, ((getAction Q env 0).1, v) ∈ inn ∧
        (∀ x ∈ inn, x.2 ≤ v) ∧
        (dget? Q env.board = none →
          (getAction Q env 0).1 = (legalActionsOf env.board).headI) := by
  have hga : getAction Q env 0 =
      ((exploitChoice (ensureBoard Q env.board) env.board).1,
       (exploitChoice (ensureBoard Q env.board) env.board).2,
       env.rng) := by
    unfold getAction
    rw [if_neg (lt_irrefl (0 : ℚ))]
  have hec1 : (exploitChoice (ensureBoard Q env.board) env.board).1 =
      (firstMaxKey ((legalActionsOf env.board).foldl insDefault
        ((dget? (ensureBoard Q env.board) env.board).getD []))).getD 0 := rfl
  have hec2 : (exploitChoice (ensureBoard Q env.board) env.board).2 =
      dset (ensureBoard Q env.board) env.board
        ((legalActionsOf env.board).foldl insDefault
          ((dget? (ensureBoard Q env.board) env.board).getD [])) := rfl
  obtain ⟨a0, l0, hl⟩ := List.exists_cons_of_ne_nil hne
  have ha0 : a0 ∈ legalActionsOf env.board := by
    rw [hl]
    exact List.mem_cons_self _ _
  have hsome := dget?_foldIns_mem (legalActionsOf env.board)
    ((dget? (ensureBoard Q env.board) env.board).getD []) a0 ha0
  rcases hinn2 : (legalActionsOf env.board).foldl insDefault
      ((dget? (ensureBoard Q env.board) env.board).getD [])
    with _ | ⟨e, rest⟩
  · rw [hinn2] at hsome
    simp [dget?] at hsome
  · refine ⟨e :: rest, ?_, (firstMaxP e rest).2, ?_, ?_, ?_⟩
    · rw [hga]
      simp only
      rw [hec2, hinn2]
      exact dget?_dset_self _ _ _
    · rw [hga]
      simp only
      rw [hec1, hinn2]
      simp only [firstMaxKey, Option.getD_some]
      have := firstMaxP_mem rest e
      simpa using this
    · intro x hx
      exact firstMaxP_le rest e x hx
    · intro hnone
      rw [hga]
      simp only
      rw [hec1, hinn2]
      simp only [firstMaxKey, Option.getD_some]
      have hget : (dget? (ensureBoard Q env.board) env.board).getD [] =
          ([] : Inner) := by
        rw [ensure_dget?, hnone]
        rfl
      have hmap : (legalActionsOf env.board).foldl insDefault
          ((dget? (ensureBoard Q env.board) env.board).getD []) =
          (legalActionsOf env.board).map (fun x => (x, (0 : ℚ))) := by
        rw [hget]
        have := foldIns_disjoint (legalActionsOf env.board) []
          (fun x _ => rfl) (legalActionsOf_nodup _)
        simpa using this
      rw [hinn2, hl] at hmap
      simp only [List.map_cons] at hmap
      have he : e = (a0, (0 : ℚ)) := (List.cons.injEq _ _ _ _ ▸ hmap).1
      have hrest : rest = l0.map (fun x => (x, (0 : ℚ))) :=
        (List.cons.injEq _ _ _ _ ▸ hmap).2
      have hall : ∀ x ∈ rest, x.2 ≤ e.2 := by
        intro x hx
        rw [hrest] at hx
        obtain ⟨y, _, hy⟩ := List.mem_map.mp hx
        rw [← hy, he]
      have := firstMaxP_of_le rest e hall
      rw [this, he, hl]
      rfl

theorem C2_amended_witness :
    legalActionsOf (envReset (cSrc 0)).board ≠ [] ∧
    (∃ inn, dget? (getAction [] (envReset (cSrc 0)) 0).2.1
        (envReset (cSrc 0)).board = some inn ∧
      ∃ v, ((getAction [] (envReset (cSrc 0)) 0).1, v) ∈ inn ∧
        (∀ x ∈ inn, x.2 ≤ v) ∧
        (dget? ([] : QTable) (envReset (cSrc 0)).board = none →
          (getAction [] (envReset (cSrc 0)) 0).1 =
            (legalActionsOf (envReset (cSrc 0)).board).headI)) :=
  ⟨by decide, C2_amended [] (envReset (cSrc 0)) (by decide)⟩

end TTT
